import Mathlib

/-!
Verification of the ManiSkill PPO baseline (`examples/baselines/ppo/ppo_rgb_sb3.py`)
and the flatten wrappers (`mani_skill/utils/wrappers/flatten.py`), via a shallow
embedding of the relevant code in Lean.  Machine floating-point numbers are
modelled by exact rationals, tensors by lists or index functions.
-/

namespace PPO

/-!
### Finite-horizon GAE (`ppo_rgb_sb3.py`, lines 461-501)

The advantage loop operates elementwise on tensors of shape `(num_envs,)`;
the recursion for each environment slot is independent of the others, so the
embedding models one environment slot with scalar (rational) per-step data.
-/

/-- Inputs of one iteration's advantage computation for a single environment
slot.  `dones t` is the stored pre-step done flag `dones[t]` (a float 0.0/1.0
in the code), `final_values t` is `final_values[t]` for this slot,
`next_value` / `next_done` are the post-rollout bootstrap value and done flag. -/
structure GaeInput where
  numSteps : ℕ
  gamma : ℚ
  gae_lambda : ℚ
  rewards : ℕ → ℚ
  values : ℕ → ℚ
  dones : ℕ → ℚ
  final_values : ℕ → ℚ
  next_value : ℚ
  next_done : ℚ

/-- `next_not_done` at step `t` (lines 466-470): `1 - next_done` at the last
step, else `1 - dones[t+1]`. -/
def nnd (I : GaeInput) (t : ℕ) : ℚ :=
  if t = I.numSteps - 1 then 1 - I.next_done else 1 - I.dones (t + 1)

/-- `nextvalues` at step `t` (lines 466-471): the bootstrap `next_value` at the
last step, else `values[t+1]`. -/
def nextvalues (I : GaeInput) (t : ℕ) : ℚ :=
  if t = I.numSteps - 1 then I.next_value else I.values (t + 1)

/-- `real_next_values = next_not_done * nextvalues + final_values[t]` (line 472). -/
def real_next_values (I : GaeInput) (t : ℕ) : ℚ :=
  nnd I t * nextvalues I t + I.final_values t

/-- The three running accumulators of the finite-horizon GAE branch
(`lam_coef_sum`, `reward_term_sum`, `value_term_sum`, lines 485-495). -/
structure GaeState where
  lam_coef_sum : ℚ
  reward_term_sum : ℚ
  value_term_sum : ℚ
deriving Repr, DecidableEq

/-- The accumulators are initialised to zero at the first (highest-`t`) pass of
the backward loop (lines 485-488). -/
def gaeInit : GaeState := ⟨0, 0, 0⟩

/-- One pass of the backward loop body of the finite-horizon branch
(lines 489-495): each accumulator is first multiplied by `next_not_done`, then
`lam_coef_sum = 1 + λ·lam_coef_sum`,
`reward_term_sum = λ·γ·reward_term_sum + lam_coef_sum·rewards[t]`,
`value_term_sum = λ·γ·value_term_sum + γ·real_next_values`. -/
def gaeStep (I : GaeInput) (t : ℕ) (s : GaeState) : GaeState :=
  let c0 := s.lam_coef_sum * nnd I t
  let r0 := s.reward_term_sum * nnd I t
  let v0 := s.value_term_sum * nnd I t
  let c1 := 1 + I.gae_lambda * c0
  { lam_coef_sum := c1
    reward_term_sum := I.gae_lambda * I.gamma * r0 + c1 * I.rewards t
    value_term_sum := I.gae_lambda * I.gamma * v0 + I.gamma * real_next_values I t }

/-- Accumulator state after the loop body has processed steps
`numSteps-1, numSteps-2, …, numSteps-1-k` (so `k = 0` is the first pass of the
backward loop, at `t = numSteps-1`). -/
def gaeStateAfter (I : GaeInput) : ℕ → GaeState
  | 0 => gaeStep I (I.numSteps - 1) gaeInit
  | k + 1 => gaeStep I (I.numSteps - 1 - (k + 1)) (gaeStateAfter I k)

/-- The accumulator state with which the loop body at step `t` starts: the
initial zero state at `t = numSteps-1`, else the state left by step `t+1`. -/
def gaePrev (I : GaeInput) (t : ℕ) : GaeState :=
  if t = I.numSteps - 1 then gaeInit else gaeStateAfter I (I.numSteps - 1 - (t + 1))

/-- `advantages[t]` in the finite-horizon branch (line 497):
`(reward_term_sum + value_term_sum) / lam_coef_sum - values[t]`. -/
def advFH (I : GaeInput) (t : ℕ) : ℚ :=
  let s := gaeStateAfter I (I.numSteps - 1 - t)
  (s.reward_term_sum + s.value_term_sum) / s.lam_coef_sum - I.values t

/-- `returns = advantages + values` (line 501), finite-horizon branch. -/
def retFH (I : GaeInput) (t : ℕ) : ℚ :=
  advFH I t + I.values t

/-- The TD residual `delta` of the standard (infinite-horizon) branch
(line 499): `rewards[t] + γ·real_next_values - values[t]`. -/
def delta (I : GaeInput) (t : ℕ) : ℚ :=
  I.rewards t + I.gamma * real_next_values I t - I.values t

/-- `lastgaelam` after the standard branch's loop body has processed steps
`numSteps-1, …, numSteps-1-k` (line 500, with `lastgaelam` initialised to 0). -/
def lastgaelamAfter (I : GaeInput) : ℕ → ℚ
  | 0 => delta I (I.numSteps - 1) +
      I.gamma * I.gae_lambda * nnd I (I.numSteps - 1) * 0
  | k + 1 => delta I (I.numSteps - 1 - (k + 1)) +
      I.gamma * I.gae_lambda * nnd I (I.numSteps - 1 - (k + 1)) * lastgaelamAfter I k

/-- `advantages[t]` in the standard (infinite-horizon) branch (line 500). -/
def advStd (I : GaeInput) (t : ℕ) : ℚ :=
  lastgaelamAfter I (I.numSteps - 1 - t)

/-- The state recursion of the backward loop: the state after processing step
`t` is one `gaeStep` applied to the state with which step `t` started. -/
theorem gaeStateAfter_eq_step (I : GaeInput) (t : ℕ) (ht : t < I.numSteps) :
    gaeStateAfter I (I.numSteps - 1 - t) = gaeStep I t (gaePrev I t) := by
  rcases eq_or_ne t (I.numSteps - 1) with h | h
  · subst h
    simp [gaeStateAfter, gaePrev]
  · have h1 : t < I.numSteps - 1 := by omega
    have h2 : I.numSteps - 1 - t = (I.numSteps - 1 - (t + 1)) + 1 := by omega
    rw [h2]
    have h3 : I.numSteps - 1 - ((I.numSteps - 1 - (t + 1)) + 1) = t := by omega
    rw [gaeStateAfter, h3, gaePrev, if_neg h]

/-- Claim C1: in finite-horizon GAE mode, walking `t` backward from
`numSteps-1` to `0`, the three accumulators satisfy exactly
`C = 1 + λ·C_prev·next_not_done`,
`R = λ·γ·R_prev·next_not_done + C·reward[t]`,
`V = λ·γ·V_prev·next_not_done + γ·(next value estimate when next_not_done is 1,
else the stored bootstrap value for slot/step t)`, and
`advantages[t] = (R + V)/C - values[t]`, with returns = advantages + values.
The `V` clause needs the bootstrap buffer to be zero wherever
`next_not_done = 1` (the invariant of claim C3). -/
theorem gae_finite_horizon_recurrence (I : GaeInput) (t : ℕ) (ht : t < I.numSteps)
    (hsparse : ∀ u, nnd I u = 1 → I.final_values u = 0) :
    (gaeStateAfter I (I.numSteps - 1 - t)).lam_coef_sum
        = 1 + I.gae_lambda * (gaePrev I t).lam_coef_sum * nnd I t
    ∧ (gaeStateAfter I (I.numSteps - 1 - t)).reward_term_sum
        = I.gae_lambda * I.gamma * (gaePrev I t).reward_term_sum * nnd I t
          + (gaeStateAfter I (I.numSteps - 1 - t)).lam_coef_sum * I.rewards t
    ∧ (nnd I t = 1 →
        (gaeStateAfter I (I.numSteps - 1 - t)).value_term_sum
          = I.gae_lambda * I.gamma * (gaePrev I t).value_term_sum * nnd I t
            + I.gamma * nextvalues I t)
    ∧ (nnd I t = 0 →
        (gaeStateAfter I (I.numSteps - 1 - t)).value_term_sum
          = I.gae_lambda * I.gamma * (gaePrev I t).value_term_sum * nnd I t
            + I.gamma * I.final_values t)
    ∧ advFH I t
        = ((gaeStateAfter I (I.numSteps - 1 - t)).reward_term_sum
            + (gaeStateAfter I (I.numSteps - 1 - t)).value_term_sum)
          / (gaeStateAfter I (I.numSteps - 1 - t)).lam_coef_sum - I.values t
    ∧ retFH I t = advFH I t + I.values t := by
  have h := gaeStateAfter_eq_step I t ht
  refine ⟨?_, ?_, ?_, ?_, ?_, rfl⟩
  · rw [h]; simp only [gaeStep]; ring
  · rw [h]; simp only [gaeStep]; ring
  · intro h1
    rw [h]
    simp only [gaeStep, real_next_values, h1, hsparse t h1]
    ring
  · intro h0
    rw [h]
    simp only [gaeStep, real_next_values, h0]
    ring
  · simp only [advFH]

/-- A concrete two-step rollout slot used to instantiate the GAE theorems. -/
def gaeEx : GaeInput where
  numSteps := 2
  gamma := 1/2
  gae_lambda := 1/3
  rewards := fun _ => 1
  values := fun _ => 0
  dones := fun _ => 0
  final_values := fun _ => 0
  next_value := 2
  next_done := 0

/-- Witness for claim C1 at the concrete input `gaeEx`, step 0. -/
theorem gae_finite_horizon_recurrence_witness :
    (0 < gaeEx.numSteps)
    ∧ ((gaeStateAfter gaeEx (gaeEx.numSteps - 1 - 0)).lam_coef_sum
          = 1 + gaeEx.gae_lambda * (gaePrev gaeEx 0).lam_coef_sum * nnd gaeEx 0
      ∧ (gaeStateAfter gaeEx (gaeEx.numSteps - 1 - 0)).reward_term_sum
          = gaeEx.gae_lambda * gaeEx.gamma * (gaePrev gaeEx 0).reward_term_sum * nnd gaeEx 0
            + (gaeStateAfter gaeEx (gaeEx.numSteps - 1 - 0)).lam_coef_sum * gaeEx.rewards 0
      ∧ (nnd gaeEx 0 = 1 →
          (gaeStateAfter gaeEx (gaeEx.numSteps - 1 - 0)).value_term_sum
            = gaeEx.gae_lambda * gaeEx.gamma * (gaePrev gaeEx 0).value_term_sum * nnd gaeEx 0
              + gaeEx.gamma * nextvalues gaeEx 0)
      ∧ (nnd gaeEx 0 = 0 →
          (gaeStateAfter gaeEx (gaeEx.numSteps - 1 - 0)).value_term_sum
            = gaeEx.gae_lambda * gaeEx.gamma * (gaePrev gaeEx 0).value_term_sum * nnd gaeEx 0
              + gaeEx.gamma * gaeEx.final_values 0)
      ∧ advFH gaeEx 0
          = ((gaeStateAfter gaeEx (gaeEx.numSteps - 1 - 0)).reward_term_sum
              + (gaeStateAfter gaeEx (gaeEx.numSteps - 1 - 0)).value_term_sum)
            / (gaeStateAfter gaeEx (gaeEx.numSteps - 1 - 0)).lam_coef_sum - gaeEx.values 0
      ∧ retFH gaeEx 0 = advFH gaeEx 0 + gaeEx.values 0) :=
  ⟨by decide, gae_finite_horizon_recurrence gaeEx 0 (by decide) (fun u _ => rfl)⟩

/-- A two-step rollout slot with no episode ends anywhere (all done flags 0),
zero values and bootstrap buffer, `γ = λ = 1`, rewards `[0, 1]`. -/
def gaeNoDone : GaeInput where
  numSteps := 2
  gamma := 1
  gae_lambda := 1
  rewards := fun t => if t = 1 then 1 else 0
  values := fun _ => 0
  dones := fun _ => 0
  final_values := fun _ => 0
  next_value := 0
  next_done := 0

/-- Counterexample to claim C2: on the no-episode-end rollout `gaeNoDone`
the finite-horizon branch yields advantage `1/2` at step 0 while the standard
infinite-horizon recursion yields `1` — an exact algebraic mismatch, not a
rounding artifact. -/
theorem gae_equivalence_counterexample :
    gaeNoDone.dones 0 = 0 ∧ gaeNoDone.dones 1 = 0 ∧ gaeNoDone.next_done = 0
    ∧ advFH gaeNoDone 0 = 1/2 ∧ advStd gaeNoDone 0 = 1
    ∧ advFH gaeNoDone 0 ≠ advStd gaeNoDone 0 := by
  have hFH : advFH gaeNoDone 0 = 1/2 := by
    norm_num [advFH, gaeStateAfter, gaeStep, gaeInit, real_next_values, nnd,
      nextvalues, gaeNoDone]
  have hStd : advStd gaeNoDone 0 = 1 := by
    norm_num [advStd, lastgaelamAfter, delta, real_next_values, nnd,
      nextvalues, gaeNoDone]
  refine ⟨rfl, rfl, rfl, hFH, hStd, ?_⟩
  rw [hFH, hStd]
  norm_num

/-- Claim C2 (amended): for a rollout with no episode ends, the two branches
agree at the final step `t = numSteps - 1`; at earlier steps they can differ
(see the counterexample). -/
theorem gae_equivalence_last_step (I : GaeInput) (hH : 1 ≤ I.numSteps)
    (_hdones : ∀ t, I.dones t = 0) (_hnd : I.next_done = 0) :
    advFH I (I.numSteps - 1) = advStd I (I.numSteps - 1) := by
  have h0 : I.numSteps - 1 - (I.numSteps - 1) = 0 := by omega
  simp only [advFH, advStd, h0, gaeStateAfter, lastgaelamAfter, gaeStep, gaeInit, delta]
  ring_nf

/-- Witness for the amended claim C2 at the concrete no-episode-end input
`gaeNoDone`. -/
theorem gae_equivalence_last_step_witness :
    advFH gaeNoDone (gaeNoDone.numSteps - 1) = advStd gaeNoDone (gaeNoDone.numSteps - 1) :=
  gae_equivalence_last_step gaeNoDone (by decide) (fun _ => rfl) rfl

/-!
### Rollout collection of bootstrap values (`ppo_rgb_sb3.py`, lines 443-458)

`final_values` is allocated as a zero tensor of shape `(num_steps, num_envs)`
at the start of every iteration (line 381).  After stepping the environment at
rollout step `t`, if the info payload contains `final_info`, row `t` is written
at exactly the environment slots selected by the boolean mask
`infos["_final_info"]`, with the critic's value of the side-channel
`infos["final_observation"]` (lines 449-458).  The critic and the observation
type are abstract parameters of the embedding.
-/

/-- The data returned by one vectorized `envs.step` call that the
`final_values` logic consumes: per-env termination/truncation flags, whether
`"final_info" in infos`, the `_final_info` boolean mask, the side-channel true
final observation per slot, and the main (auto-reset) observation per slot. -/
structure StepResult (Obs : Type) where
  terminated : ℕ → Bool
  truncated : ℕ → Bool
  hasFinal : Bool
  mask : ℕ → Bool
  finalObs : ℕ → Obs
  resetObs : ℕ → Obs

/-- The done flag recorded for a step: `torch.logical_or(terminations,
truncations)` (line 446). -/
def stepDone {Obs : Type} (r : StepResult Obs) (e : ℕ) : Bool :=
  r.terminated e || r.truncated e

/-- Row `t` of `final_values` after rollout step `t`: slot `e` holds the
critic's value of the true final observation if the step delivered
`final_info` and the mask selects `e`, else it keeps its zero initialisation
(lines 381, 449-458). -/
def finalValuesRow {Obs : Type} (critic : Obs → ℚ) (numEnvs : ℕ)
    (r : StepResult Obs) : List ℚ :=
  (List.range numEnvs).map fun e =>
    if r.hasFinal && r.mask e then critic (r.finalObs e) else 0

/-- The whole `final_values` buffer after the rollout loop: each row `t` is
written exactly once, at step `t`. -/
def collectFinalValues {Obs : Type} (critic : Obs → ℚ) (numEnvs : ℕ)
    (results : List (StepResult Obs)) : List (List ℚ) :=
  results.map (finalValuesRow critic numEnvs)

/-- Claim C3: with an environment obeying the vectorized contract (the
`_final_info` mask is set only for slots whose episode just terminated or
truncated), the `final_values` buffer is nonzero at `(t, e)` only if slot `e`'s
done flag for step `t` is 1, and at masked entries it holds the critic's value
of the true final observation from the info side-channel (`finalObs`, not the
auto-reset `resetObs` that lands in the main observation slot). -/
theorem final_values_sparse_invariant {Obs : Type} (critic : Obs → ℚ)
    (numEnvs : ℕ) (results : List (StepResult Obs)) (t e : ℕ) (r : StepResult Obs)
    (hcontract : ∀ s ∈ results, ∀ i, s.mask i = true → stepDone s i = true)
    (ht : results[t]? = some r) (he : e < numEnvs) :
    (collectFinalValues critic numEnvs results)[t]?
        = some (finalValuesRow critic numEnvs r)
    ∧ (finalValuesRow critic numEnvs r)[e]?
        = some (if r.hasFinal && r.mask e then critic (r.finalObs e) else 0)
    ∧ ((finalValuesRow critic numEnvs r)[e]? ≠ some 0 → stepDone r e = true)
    ∧ (r.hasFinal = true → r.mask e = true →
        (finalValuesRow critic numEnvs r)[e]? = some (critic (r.finalObs e))) := by
  have hrow : (finalValuesRow critic numEnvs r)[e]?
      = some (if r.hasFinal && r.mask e then critic (r.finalObs e) else 0) := by
    simp [finalValuesRow, List.getElem?_map, List.getElem?_range he]
  have hmem : r ∈ results := List.getElem?_mem ht
  refine ⟨?_, hrow, ?_, ?_⟩
  · simp [collectFinalValues, List.getElem?_map, ht]
  · intro hne
    rw [hrow] at hne
    by_cases hm : (r.hasFinal && r.mask e) = true
    · rw [Bool.and_eq_true] at hm
      exact hcontract r hmem e hm.2
    · simp [hm] at hne
  · intro hf hm
    rw [hrow, hf, hm]
    simp

/-- A concrete critic for the witness: observations are naturals, the value
estimate is the observation itself. -/
def criticEx : ℕ → ℚ := fun n => n

/-- A concrete step result for the witness: with 2 environments, slot 0
terminates (mask set) with true final observation `7`, slot 1 keeps going. -/
def stepEx : StepResult ℕ where
  terminated := fun e => e == 0
  truncated := fun _ => false
  hasFinal := true
  mask := fun e => e == 0
  finalObs := fun e => 7 + e
  resetObs := fun e => 100 + e

/-- Witness for claim C3 at the concrete one-step rollout `[stepEx]`,
entry `(0, 0)`. -/
theorem final_values_sparse_invariant_witness :
    (collectFinalValues criticEx 2 [stepEx])[0]?
        = some (finalValuesRow criticEx 2 stepEx)
    ∧ (finalValuesRow criticEx 2 stepEx)[0]?
        = some (if stepEx.hasFinal && stepEx.mask 0 then criticEx (stepEx.finalObs 0) else 0)
    ∧ ((finalValuesRow criticEx 2 stepEx)[0]? ≠ some 0 → stepDone stepEx 0 = true)
    ∧ (stepEx.hasFinal = true → stepEx.mask 0 = true →
        (finalValuesRow criticEx 2 stepEx)[0]? = some (criticEx (stepEx.finalObs 0))) :=
  final_values_sparse_invariant criticEx 2 [stepEx] 0 0 stepEx
    (by
      intro s hs i hm
      simp only [List.mem_singleton] at hs
      subst hs
      simp only [stepEx, stepDone, Bool.or_false] at hm ⊢
      exact hm)
    rfl (by norm_num)

/-!
### Action flattening (`flatten.py`, `FlattenActionSpaceWrapper`, lines 120-158)

The wrapper records a deep copy of the declared dict action space at
construction (line 127), exposes the flat Box space obtained from it
(lines 130-138), and `action` (lines 144-158) reverses the flattening by
slicing contiguous column ranges per key in the declared order.  A declared
sub-space is embedded as its key paired with its flat dimension
`space.shape[0]`; sub-action values are rational matrices (batch rows ×
feature columns).
-/

/-- One row's contiguous column slice `row[start : start+width]`. -/
def sliceRow (start width : ℕ) (row : List ℚ) : List ℚ :=
  (row.drop start).take width

/-- `action[:, start:end]` with `end = start + width`, acting row-wise on a
batch. -/
def sliceCols (start width : ℕ) (rows : List (List ℚ)) : List (List ℚ) :=
  rows.map (sliceRow start width)

/-- The unflattening loop of `FlattenActionSpaceWrapper.action`
(lines 152-158): walk the declared sub-spaces in order; key `k` of dimension
`d` receives columns `[start, start + d)` and `start` advances by `d`. -/
def unflattenAction :
    List (String × ℕ) → ℕ → List (List ℚ) → List (String × List (List ℚ))
  | [], _, _ => []
  | (k, d) :: rest, start, rows =>
      (k, sliceCols start d rows) :: unflattenAction rest (start + d) rows

/-- Total dimension of the declared dict action space — the dimension of the
flat Box produced by `gymnasium.spaces.utils.flatten_space` (line 130). -/
def sumDims (ds : List (String × ℕ)) : ℕ := (ds.map Prod.snd).sum

/-- Concatenation of the per-key sub-action batches along the feature axis in
the declared key order: the flattening that pairs with the wrapper's flat
action space (performed outside this repository — the policy emits
already-flat actions). -/
def concatCols : List (String × List (List ℚ)) → List (List ℚ)
  | [] => []
  | [(_, m)] => m
  | (_, m) :: rest => List.zipWith (fun a b => a ++ b) m (concatCols rest)

/-- A flat action arriving at the wrapper: either a `(num_envs, dim)` batch or
a single unbatched `(dim,)` vector. -/
inductive ActionInput where
  | batched : List (List ℚ) → ActionInput
  | single : List ℚ → ActionInput

/-- `FlattenActionSpaceWrapper.action` (lines 144-158): a 1-D action is
auto-promoted to a batch of one row (`common.batch`) when `num_envs == 1` and
its shape matches the flat single-action space; a 1-D action that is not
promoted reaches the 2-D slice `action[:, start:end]` and raises an indexing
error (modelled as `none`; assumes at least one declared sub-space). -/
def wrapperAction (ds : List (String × ℕ)) (numEnvs : ℕ) :
    ActionInput → Option (List (String × List (List ℚ)))
  | .batched rows => some (unflattenAction ds 0 rows)
  | .single a =>
      if numEnvs = 1 ∧ a.length = sumDims ds then some (unflattenAction ds 0 [a])
      else none

/-- `NestedWF n ds ms`: `ms` is a nested action matching the declared spaces
`ds` key-for-key in order, each sub-action an `n`-row batch whose rows have
that sub-space's dimension. -/
def NestedWF (n : ℕ) : List (String × ℕ) → List (String × List (List ℚ)) → Prop
  | [], [] => True
  | (k, d) :: ds, (k2, m) :: ms =>
      k2 = k ∧ m.length = n ∧ (∀ r ∈ m, r.length = d) ∧ NestedWF n ds ms
  | _, _ => False

theorem sliceCols_zero_self (d : ℕ) :
    ∀ m : List (List ℚ), (∀ r ∈ m, r.length = d) → sliceCols 0 d m = m := by
  intro m
  induction m with
  | nil => intro _; rfl
  | cons r m ih =>
    intro h
    have hr : r.length = d := h r (by simp)
    have hm : sliceCols 0 d m = m := ih fun q hq => h q (by simp [hq])
    simp only [sliceCols, List.map_cons] at hm ⊢
    rw [hm]
    simp [sliceRow, ← hr]

theorem sliceCols_concat_head (d : ℕ) :
    ∀ (m rows : List (List ℚ)), m.length = rows.length → (∀ r ∈ m, r.length = d) →
      sliceCols 0 d (List.zipWith (fun a b => a ++ b) m rows) = m := by
  intro m
  induction m with
  | nil => intro rows _ _; rfl
  | cons a m ih =>
    intro rows hlen hm
    cases rows with
    | nil => simp at hlen
    | cons b rows =>
      simp only [List.zipWith_cons_cons, sliceCols, List.map_cons]
      congr 1
      · simp only [sliceRow, List.drop_zero]
        exact List.take_left' (hm a (by simp))
      · exact ih rows (by simpa using hlen) fun q hq => hm q (by simp [hq])

theorem sliceCols_shift (d s w : ℕ) :
    ∀ (m rows : List (List ℚ)), m.length = rows.length → (∀ r ∈ m, r.length = d) →
      sliceCols (d + s) w (List.zipWith (fun a b => a ++ b) m rows)
        = sliceCols s w rows := by
  intro m
  induction m with
  | nil =>
    intro rows hlen _
    cases rows with
    | nil => rfl
    | cons b rows => simp at hlen
  | cons a m ih =>
    intro rows hlen hm
    cases rows with
    | nil => simp at hlen
    | cons b rows =>
      simp only [List.zipWith_cons_cons, sliceCols, List.map_cons]
      congr 1
      · have ha : a.length = d := hm a (by simp)
        simp only [sliceRow]
        rw [← ha, ← List.drop_drop, List.drop_left]
      · exact ih rows (by simpa using hlen) fun q hq => hm q (by simp [hq])

theorem unflattenAction_shift (d : ℕ) :
    ∀ (ds : List (String × ℕ)) (s : ℕ) (m rows : List (List ℚ)),
      m.length = rows.length → (∀ r ∈ m, r.length = d) →
      unflattenAction ds (d + s) (List.zipWith (fun a b => a ++ b) m rows)
        = unflattenAction ds s rows := by
  intro ds
  induction ds with
  | nil => intro s m rows _ _; rfl
  | cons p ds ih =>
    intro s m rows hlen hm
    obtain ⟨k, w⟩ := p
    simp only [unflattenAction]
    congr 1
    · rw [sliceCols_shift d s w m rows hlen hm]
    · have : d + s + w = d + (s + w) := by omega
      rw [this, ih (s + w) m rows hlen hm]

theorem concatCols_length (n : ℕ) :
    ∀ (ms : List (String × List (List ℚ))) (ds : List (String × ℕ)),
      NestedWF n ds ms → ms ≠ [] → (concatCols ms).length = n := by
  intro ms
  induction ms with
  | nil => intro ds _ h; exact absurd rfl h
  | cons p ms ih =>
    intro ds hwf _
    obtain ⟨k2, m⟩ := p
    cases ds with
    | nil => simp [NestedWF] at hwf
    | cons q ds =>
      obtain ⟨k, d⟩ := q
      obtain ⟨hk, hlen, _, hrest⟩ := hwf
      cases ms with
      | nil => simpa [concatCols] using hlen
      | cons p2 ms2 =>
        have h2 : (concatCols (p2 :: ms2)).length = n := ih ds hrest (by simp)
        simp [concatCols, List.length_zipWith, hlen, h2]

/-- Round trip 1: unflattening the flattening of a well-formed nested action
recovers the nested action. -/
theorem unflatten_concat (n : ℕ) :
    ∀ (ms : List (String × List (List ℚ))) (ds : List (String × ℕ)),
      NestedWF n ds ms → unflattenAction ds 0 (concatCols ms) = ms := by
  intro ms
  induction ms with
  | nil =>
    intro ds hwf
    cases ds with
    | nil => rfl
    | cons q ds => simp [NestedWF] at hwf
  | cons p ms ih =>
    intro ds hwf
    obtain ⟨k2, m⟩ := p
    cases ds with
    | nil => simp [NestedWF] at hwf
    | cons q ds =>
      obtain ⟨k, d⟩ := q
      obtain ⟨hk, hlen, hrows, hrest⟩ := hwf
      subst hk
      cases ms with
      | nil =>
        cases ds with
        | nil =>
          simp only [concatCols, unflattenAction]
          rw [sliceCols_zero_self d m hrows]
        | cons q2 ds2 => simp [NestedWF] at hrest
      | cons p2 ms2 =>
        have hC : (concatCols (p2 :: ms2)).length = n :=
          concatCols_length n (p2 :: ms2) ds hrest (by simp)
        have hlen2 : m.length = (concatCols (p2 :: ms2)).length := by rw [hlen, hC]
        simp only [concatCols, unflattenAction]
        congr 1
        · rw [sliceCols_concat_head d m (concatCols (p2 :: ms2)) hlen2 hrows]
        · have h0 : (0 : ℕ) + d = d + 0 := by omega
          rw [h0, unflattenAction_shift d ds 0 m (concatCols (p2 :: ms2)) hlen2 hrows]
          exact ih ds hrest

/-- Round trip 2, offset form: concatenating the column slices from offset `s`
onward recovers each row's tail from column `s`. -/
theorem concat_unflatten_drop :
    ∀ (ds : List (String × ℕ)) (s : ℕ) (rows : List (List ℚ)), ds ≠ [] →
      (∀ r ∈ rows, r.length = s + sumDims ds) →
      concatCols (unflattenAction ds s rows) = rows.map (fun r => r.drop s) := by
  intro ds
  induction ds with
  | nil => intro s rows h _; exact absurd rfl h
  | cons p ds ih =>
    intro s rows _ hrows
    obtain ⟨k, d⟩ := p
    cases ds with
    | nil =>
      simp only [unflattenAction, concatCols, sliceCols]
      apply List.map_congr_left
      intro r hr
      have : r.length = s + d := by simpa [sumDims] using hrows r hr
      simp only [sliceRow]
      apply List.take_of_length_le
      simp [this]
    | cons q ds2 =>
      have htail : concatCols (unflattenAction (q :: ds2) (s + d) rows)
          = rows.map (fun r => r.drop (s + d)) := by
        apply ih (s + d) rows (by simp)
        intro r hr
        have := hrows r hr
        simp only [sumDims, List.map_cons, List.sum_cons] at this ⊢
        omega
      obtain ⟨k2, d2⟩ := q
      simp only [unflattenAction, concatCols] at htail ⊢
      rw [htail]
      simp only [sliceCols]
      rw [List.zipWith_map (fun a b => a ++ b) (sliceRow s d) (fun r => r.drop (s + d)) rows rows,
        List.zipWith_same]
      apply List.map_congr_left
      intro r _
      simp only [sliceRow]
      calc (r.drop s).take d ++ r.drop (s + d)
          = (r.drop s).take d ++ (r.drop s).drop d := by rw [List.drop_drop]
        _ = r.drop s := List.take_append_drop d (r.drop s)

theorem unflattenAction_keys :
    ∀ (ds : List (String × ℕ)) (s : ℕ) (rows : List (List ℚ)),
      (unflattenAction ds s rows).map Prod.fst = ds.map Prod.fst := by
  intro ds
  induction ds with
  | nil => intro s rows; rfl
  | cons p ds ih =>
    intro s rows
    obtain ⟨k, d⟩ := p
    simp only [unflattenAction, List.map_cons, ih]

theorem unflattenAction_get :
    ∀ (ds : List (String × ℕ)) (s : ℕ) (rows : List (List ℚ)) (i : ℕ)
      (hi : i < ds.length),
      (unflattenAction ds s rows)[i]?
        = some ((ds.get ⟨i, hi⟩).1,
            sliceCols (s + sumDims (ds.take i)) (ds.get ⟨i, hi⟩).2 rows) := by
  intro ds
  induction ds with
  | nil => intro s rows i hi; simp at hi
  | cons p ds ih =>
    intro s rows i hi
    obtain ⟨k, d⟩ := p
    cases i with
    | zero => simp [unflattenAction, sumDims]
    | succ i =>
      have hi2 : i < ds.length := by simpa using hi
      simp only [unflattenAction, List.getElem?_cons_succ]
      rw [ih (s + d) rows i hi2]
      have harith : s + d + sumDims (ds.take i)
          = s + sumDims (((k, d) :: ds).take (i + 1)) := by
        simp only [List.take_succ_cons, sumDims, List.map_cons, List.sum_cons]
        omega
      rw [harith]
      rfl

theorem sumDims_take_le :
    ∀ (ds : List (String × ℕ)) (i : ℕ) (hi : i < ds.length),
      sumDims (ds.take i) + (ds.get ⟨i, hi⟩).2 ≤ sumDims ds := by
  intro ds
  induction ds with
  | nil => intro i hi; simp at hi
  | cons p ds ih =>
    intro i hi
    obtain ⟨k, d⟩ := p
    cases i with
    | zero => simp [sumDims]
    | succ i =>
      have hi2 : i < ds.length := by simpa using hi
      have := ih i hi2
      simp only [sumDims, List.take_succ_cons, List.map_cons, List.sum_cons,
        List.get_cons_succ] at *
      omega

/-- Claim C4: for a nested action matching the declared sub-spaces,
`unflatten (flatten nested) = nested`; for a flat batch of the declared total
dimension, `flatten (unflatten flat) = flat` (any batch size, including 1);
unflattening emits the declared keys in the declared order — fixed once per
wrapper instance by the deep copy at construction — where key `i` receives the
contiguous column range starting at the sum of the preceding dimensions, of
width equal to its sub-space dimension; and an unbatched action of matching
shape is auto-promoted to a batch of size 1 when `num_envs == 1`. -/
theorem action_flatten_roundtrip (ds : List (String × ℕ)) (n : ℕ)
    (ms : List (String × List (List ℚ))) (rows : List (List ℚ)) (a : List ℚ)
    (hds : ds ≠ []) (hwf : NestedWF n ds ms)
    (hrows : ∀ r ∈ rows, r.length = sumDims ds) (ha : a.length = sumDims ds) :
    unflattenAction ds 0 (concatCols ms) = ms
    ∧ concatCols (unflattenAction ds 0 rows) = rows
    ∧ (unflattenAction ds 0 rows).map Prod.fst = ds.map Prod.fst
    ∧ (∀ i (hi : i < ds.length),
        (unflattenAction ds 0 rows)[i]?
          = some ((ds.get ⟨i, hi⟩).1,
              sliceCols (sumDims (ds.take i)) (ds.get ⟨i, hi⟩).2 rows))
    ∧ (∀ i (hi : i < ds.length),
        ∀ q ∈ sliceCols (sumDims (ds.take i)) (ds.get ⟨i, hi⟩).2 rows,
          q.length = (ds.get ⟨i, hi⟩).2)
    ∧ wrapperAction ds 1 (ActionInput.single a) = some (unflattenAction ds 0 [a]) := by
  refine ⟨unflatten_concat n ms ds hwf, ?_, unflattenAction_keys ds 0 rows, ?_, ?_, ?_⟩
  · have h := concat_unflatten_drop ds 0 rows hds (by simpa using hrows)
    simpa using h
  · intro i hi
    have h := unflattenAction_get ds 0 rows i hi
    simpa using h
  · intro i hi q hq
    simp only [sliceCols, List.mem_map] at hq
    obtain ⟨r, hr, rfl⟩ := hq
    have hle : sumDims (ds.take i) + (ds.get ⟨i, hi⟩).2 ≤ sumDims ds :=
      sumDims_take_le ds i hi
    have hrl : r.length = sumDims ds := hrows r hr
    simp only [sliceRow, List.length_take, List.length_drop]
    omega
  · simp [wrapperAction, ha]

/-- Concrete declared action space for the witness: key `arm` of dimension 2,
then key `gripper` of dimension 1. -/
def dsEx : List (String × ℕ) := [("arm", 2), ("gripper", 1)]

/-- A concrete nested action batch of 2 rows matching `dsEx`. -/
def msEx : List (String × List (List ℚ)) :=
  [("arm", [[1, 2], [4, 5]]), ("gripper", [[3], [6]])]

/-- A concrete flat action batch of 2 rows of total dimension 3. -/
def rowsEx : List (List ℚ) := [[1, 2, 3], [4, 5, 6]]

/-- A concrete single unbatched flat action of dimension 3. -/
def aEx : List ℚ := [7, 8, 9]

/-- Witness for claim C4 at the concrete inputs `dsEx`, `msEx`, `rowsEx`,
`aEx`. -/
theorem action_flatten_roundtrip_witness :
    unflattenAction dsEx 0 (concatCols msEx) = msEx
    ∧ concatCols (unflattenAction dsEx 0 rowsEx) = rowsEx
    ∧ (unflattenAction dsEx 0 rowsEx).map Prod.fst = dsEx.map Prod.fst
    ∧ (∀ i (hi : i < dsEx.length),
        (unflattenAction dsEx 0 rowsEx)[i]?
          = some ((dsEx.get ⟨i, hi⟩).1,
              sliceCols (sumDims (dsEx.take i)) (dsEx.get ⟨i, hi⟩).2 rowsEx))
    ∧ (∀ i (hi : i < dsEx.length),
        ∀ q ∈ sliceCols (sumDims (dsEx.take i)) (dsEx.get ⟨i, hi⟩).2 rowsEx,
          q.length = (dsEx.get ⟨i, hi⟩).2)
    ∧ wrapperAction dsEx 1 (ActionInput.single aEx) = some (unflattenAction dsEx 0 [aEx]) :=
  action_flatten_roundtrip dsEx 2 msEx rowsEx aEx
    (by simp [dsEx])
    (by norm_num [NestedWF, dsEx, msEx])
    (by norm_num [rowsEx, sumDims, dsEx])
    (by norm_num [aEx, sumDims, dsEx])

/-!
### PPO update loop and KL early stop (`ppo_rgb_sb3.py`, lines 511-567)

The loss computation is abstracted into a KL oracle: for a fixed iteration's
data and a deterministic optimizer, the `approx_kl` a minibatch produces is a
function of the epoch, the minibatch position, and the number of optimizer
steps applied so far (which determines the current parameters).  The embedding
models the control flow around that oracle.
-/

/-- The update-loop state the KL logic observes: the number of
`optimizer.step()` calls performed so far (line 564), and the value of the
`approx_kl` variable left by the most recent minibatch (line 529). -/
structure UpdState where
  steps : ℕ
  lastKL : ℚ
deriving Repr, DecidableEq

/-- `args.target_kl is not None and approx_kl > args.target_kl`
(lines 532 and 566). -/
def klExceeded : Option ℚ → ℚ → Bool
  | none, _ => false
  | some t, k => decide (t < k)

/-- The minibatch loop of one epoch (lines 518-564): for each minibatch the
loop computes `approx_kl`, breaks before any gradient step if the target is
exceeded (lines 532-533), and otherwise applies exactly one optimizer step
(lines 561-564). -/
def runMBs (tkl : Option ℚ) (kl : ℕ → ℕ → ℚ) : List ℕ → UpdState → UpdState
  | [], s => s
  | m :: rest, s =>
      if klExceeded tkl (kl m s.steps) then { s with lastKL := kl m s.steps }
      else runMBs tkl kl rest { steps := s.steps + 1, lastKL := kl m s.steps }

/-- The epoch loop (lines 516-567): each epoch runs the minibatch loop over
positions `0, …, M-1` (the shuffle permutes which data lands at which
position, not the sequence of loop passes), then breaks out of the epoch loop
if the last computed `approx_kl` exceeded the target (lines 566-567). -/
def runEpochs (tkl : Option ℚ) (kl : ℕ → ℕ → ℕ → ℚ) (M : ℕ) :
    List ℕ → UpdState → UpdState
  | [], s => s
  | e :: rest, s =>
      if klExceeded tkl (runMBs tkl (kl e) (List.range M) s).lastKL then
        runMBs tkl (kl e) (List.range M) s
      else runEpochs tkl kl M rest (runMBs tkl (kl e) (List.range M) s)

/-- One iteration's whole update phase: `update_epochs` epochs starting from
zero optimizer steps. -/
def runIteration (tkl : Option ℚ) (kl : ℕ → ℕ → ℕ → ℚ) (E M : ℕ) : UpdState :=
  runEpochs tkl kl M (List.range E) ⟨0, 0⟩

theorem runMBs_no_trigger (T : ℚ) (kl : ℕ → ℕ → ℚ) :
    ∀ (ms : List ℕ) (s : UpdState),
      (∀ i (hi : i < ms.length), ¬ T < kl (ms.get ⟨i, hi⟩) (s.steps + i)) →
      (runMBs (some T) kl ms s).steps = s.steps + ms.length
      ∧ (ms ≠ [] → ¬ T < (runMBs (some T) kl ms s).lastKL) := by
  intro ms
  induction ms with
  | nil =>
    intro s _
    exact ⟨by simp [runMBs], fun h2 => absurd rfl h2⟩
  | cons m rest ih =>
    intro s h
    have h0 : ¬ T < kl m s.steps := by
      have := h 0 (by simp)
      simpa using this
    have hk : klExceeded (some T) (kl m s.steps) = false := by
      simp [klExceeded, h0]
    have hrec := ih { steps := s.steps + 1, lastKL := kl m s.steps } (fun i hi => by
      have h2 := h (i + 1) (by simpa using hi)
      rw [show s.steps + 1 + i = s.steps + (i + 1) by omega]
      exact h2)
    constructor
    · simp only [runMBs, hk, Bool.false_eq_true, if_false]
      rw [hrec.1]
      simp only [List.length_cons]
      omega
    · intro _
      simp only [runMBs, hk, Bool.false_eq_true, if_false]
      cases rest with
      | nil => simpa [runMBs] using h0
      | cons m2 rest2 => exact hrec.2 (by simp)

theorem runMBs_trigger (T : ℚ) (kl : ℕ → ℕ → ℚ) :
    ∀ (ms : List ℕ) (s : UpdState) (j : ℕ) (hj : j < ms.length),
      (∀ i (hi : i < ms.length), i < j → ¬ T < kl (ms.get ⟨i, hi⟩) (s.steps + i)) →
      T < kl (ms.get ⟨j, hj⟩) (s.steps + j) →
      (runMBs (some T) kl ms s).steps = s.steps + j
      ∧ (runMBs (some T) kl ms s).lastKL = kl (ms.get ⟨j, hj⟩) (s.steps + j) := by
  intro ms
  induction ms with
  | nil => intro s j hj; simp at hj
  | cons m rest ih =>
    intro s j hj hpre htrig
    cases j with
    | zero =>
      have htrig2 : T < kl m s.steps := htrig
      have hk : klExceeded (some T) (kl m s.steps) = true := by
        simp [klExceeded, htrig2]
      simp [runMBs, hk]
    | succ j =>
      have h0 : ¬ T < kl m s.steps := by
        have := hpre 0 (by simp) (by omega)
        simpa using this
      have hk : klExceeded (some T) (kl m s.steps) = false := by
        simp [klExceeded, h0]
      have hj2 : j < rest.length := by simpa using hj
      have hrec := ih { steps := s.steps + 1, lastKL := kl m s.steps } j hj2
        (fun i hi hij => by
          have h2 := hpre (i + 1) (by simpa using hi) (by omega)
          rw [show s.steps + 1 + i = s.steps + (i + 1) by omega]
          exact h2)
        (by
          rw [show s.steps + 1 + j = s.steps + (j + 1) by omega]
          exact htrig)
      simp only [runMBs, hk, Bool.false_eq_true, if_false]
      refine ⟨?_, ?_⟩
      · rw [hrec.1]
        show s.steps + 1 + j = s.steps + (j + 1)
        omega
      rw [hrec.2]
      rw [show s.steps + 1 + j = s.steps + (j + 1) by omega]
      rfl

theorem runEpochs_trigger (T : ℚ) (kl : ℕ → ℕ → ℕ → ℚ) (M : ℕ) :
    ∀ (es : List ℕ) (s : UpdState) (j m : ℕ) (hj : j < es.length), m < M →
      (∀ i (hi : i < es.length), i < j → ∀ m2, m2 < M →
          ¬ T < kl (es.get ⟨i, hi⟩) m2 (s.steps + i * M + m2)) →
      (∀ m2, m2 < m → ¬ T < kl (es.get ⟨j, hj⟩) m2 (s.steps + j * M + m2)) →
      T < kl (es.get ⟨j, hj⟩) m (s.steps + j * M + m) →
      (runEpochs (some T) kl M es s).steps = s.steps + j * M + m := by
  intro es
  induction es with
  | nil => intro s j m hj; simp at hj
  | cons e rest ih =>
    intro s j m hj hm hclean hpre htrig
    cases j with
    | zero =>
      simp only [Nat.zero_mul, Nat.add_zero] at hpre htrig
      have hpre2 : ∀ m2, m2 < m → ¬ T < kl e m2 (s.steps + m2) := fun m2 h => hpre m2 h
      have htrig2 : T < kl e m (s.steps + m) := htrig
      have hmb := runMBs_trigger T (kl e) (List.range M) s m (by simpa using hm)
        (fun i hi hij => by
          rw [List.get_range]
          exact hpre2 i (by omega))
        (by rw [List.get_range]; exact htrig2)
      have hk : klExceeded (some T) ((runMBs (some T) (kl e) (List.range M) s).lastKL)
          = true := by
        rw [hmb.2, List.get_range]
        simp [klExceeded, htrig2]
      simp only [runEpochs, hk, if_true]
      rw [hmb.1]
      omega
    | succ j =>
      have hM : 1 ≤ M := by omega
      have hmb := runMBs_no_trigger T (kl e) (List.range M) s (fun i hi => by
        rw [List.get_range]
        have h2 := hclean 0 (by simp) (by omega) i (by simpa using hi)
        simp only [Nat.zero_mul, Nat.add_zero] at h2
        exact h2)
      have hk : klExceeded (some T) ((runMBs (some T) (kl e) (List.range M) s).lastKL)
          = false := by
        have := hmb.2 (by simp [List.range_eq_nil]; omega)
        simp [klExceeded, this]
      have hsteps : (runMBs (some T) (kl e) (List.range M) s).steps = s.steps + M := by
        rw [hmb.1]; simp
      have hj2 : j < rest.length := by simpa using hj
      have hrec := ih (runMBs (some T) (kl e) (List.range M) s) j m hj2 hm
        (fun i hi hij m2 hm2 => by
          have h2 := hclean (i + 1) (by simpa using hi) (by omega) m2 hm2
          rw [hsteps, show s.steps + M + i * M + m2 = s.steps + (i + 1) * M + m2 by ring]
          exact h2)
        (fun m2 hm2 => by
          have h2 := hpre m2 hm2
          rw [hsteps, show s.steps + M + j * M + m2 = s.steps + (j + 1) * M + m2 by ring]
          exact h2)
        (by
          rw [hsteps, show s.steps + M + j * M + m = s.steps + (j + 1) * M + m by ring]
          exact htrig)
      simp only [runEpochs, hk, Bool.false_eq_true, if_false]
      rw [hrec, hsteps]
      ring

/-- Claim C5: with a target KL configured, if epoch `e`'s minibatch `m` is the
first whose approximate KL exceeds the target (all earlier minibatches, in
processing order, stayed at or below it), the iteration performs exactly
`e·M + m` optimizer steps: the rest of epoch `e` and all later epochs are
skipped, and the update phase returns normally (training continues with the
next iteration). -/
theorem kl_early_stop (T : ℚ) (kl : ℕ → ℕ → ℕ → ℚ) (E M e m : ℕ)
    (he : e < E) (hm : m < M)
    (hclean : ∀ e2 m2, (e2 < e ∨ (e2 = e ∧ m2 < m)) → m2 < M →
        ¬ T < kl e2 m2 (e2 * M + m2))
    (htrig : T < kl e m (e * M + m)) :
    (runIteration (some T) kl E M).steps = e * M + m := by
  have h := runEpochs_trigger T kl M (List.range E) ⟨0, 0⟩ e m
    (by simpa using he) hm
    (fun i hi hij m2 hm2 => by
      rw [List.get_range]
      have h2 := hclean i m2 (Or.inl hij) hm2
      simpa using h2)
    (fun m2 hm2 => by
      rw [List.get_range]
      have h2 := hclean e m2 (Or.inr ⟨rfl, hm2⟩) (by omega)
      simpa using h2)
    (by
      rw [List.get_range]
      simpa using htrig)
  simpa [runIteration] using h

/-- A concrete KL oracle for the witness: KL jumps above any small target at
epoch 0, minibatch 1, and is 0 elsewhere. -/
def klIterEx : ℕ → ℕ → ℕ → ℚ := fun e m _ => if e = 0 ∧ m = 1 then 1 else 0

/-- Witness for claim C5: with target `1/10`, 2 epochs × 2 minibatches, and
the KL exceeding the target first at epoch 0, minibatch 1, exactly 1 optimizer
step is performed. -/
theorem kl_early_stop_witness :
    (runIteration (some (1/10)) klIterEx 2 2).steps = 0 * 2 + 1 :=
  kl_early_stop (1/10) klIterEx 2 2 0 1 (by norm_num) (by norm_num)
    (by
      intro e2 m2 hpre _
      rcases hpre with h | ⟨he2, hm2⟩
      · omega
      · subst he2
        have hm0 : m2 = 0 := by omega
        subst hm0
        norm_num [klIterEx])
    (by norm_num [klIterEx])

/-- Claim C9: the KL check runs before the gradient step, so the first
minibatch whose approximate KL exceeds the target never contributes an
optimizer step: if within one epoch's minibatch sequence the first `j`
minibatches stay at or below the target and minibatch `j` exceeds it, the
minibatch loop performs exactly `j` optimizer steps — one per passing
minibatch, none for the triggering one — and leaves the triggering KL in
`approx_kl` for the epoch-level check. -/
theorem kl_check_before_update (T : ℚ) (kl : ℕ → ℕ → ℚ) (ms : List ℕ)
    (s : UpdState) (j : ℕ) (hj : j < ms.length)
    (hclean : ∀ i (hi : i < ms.length), i < j → ¬ T < kl (ms.get ⟨i, hi⟩) (s.steps + i))
    (htrig : T < kl (ms.get ⟨j, hj⟩) (s.steps + j)) :
    (runMBs (some T) kl ms s).steps = s.steps + j
    ∧ (runMBs (some T) kl ms s).lastKL = kl (ms.get ⟨j, hj⟩) (s.steps + j) :=
  runMBs_trigger T kl ms s j hj hclean htrig

/-- A concrete per-epoch KL oracle for the witness: minibatch 1 exceeds any
small target, minibatch 0 does not. -/
def klMbEx : ℕ → ℕ → ℚ := fun m _ => if m = 1 then 1 else 0

/-- Witness for claim C9: in an epoch over minibatches `[0, 1]` whose second
minibatch exceeds the target `1/10`, exactly 1 optimizer step happens and the
triggering KL value is left in `approx_kl`. -/
theorem kl_check_before_update_witness :
    (runMBs (some (1/10)) klMbEx [0, 1] ⟨0, 0⟩).steps = (UpdState.mk 0 0).steps + 1
    ∧ (runMBs (some (1/10)) klMbEx [0, 1] ⟨0, 0⟩).lastKL
        = klMbEx (([0, 1] : List ℕ).get ⟨1, by norm_num⟩) ((UpdState.mk 0 0).steps + 1) :=
  kl_check_before_update (1/10) klMbEx [0, 1] ⟨0, 0⟩ 1 (by norm_num)
    (by
      intro i hi hij
      have hi0 : i = 0 := by omega
      subst hi0
      norm_num [klMbEx])
    (by norm_num [klMbEx])

/-!
### Observation flattening (`flatten.py`, `FlattenRGBDObservationWrapper`,
lines 14-49)

An image is embedded as its list of channels (each channel an abstract pixel
vector); `torch.concat(..., axis=-1)` on channels-last tensors concatenates
these channel lists.
-/

/-- One camera's sensor data: image entries keyed `rgb` and `depth`; a missing
entry models an absent key (accessing it raises `KeyError`). -/
structure CamData where
  rgb : Option (List (List ℚ))
  depth : Option (List (List ℚ))

/-- The channels one camera appends to `images`: its color channels, then —
unless `rgb_only` — its depth channels (lines 36-39); `none` when a required
key is missing. -/
def camChannels (rgbOnly : Bool) (cam : CamData) : Option (List (List ℚ)) :=
  match cam.rgb with
  | none => none
  | some rgbImg =>
    if rgbOnly then some rgbImg
    else
      match cam.depth with
      | none => none
      | some depthImg => some (rgbImg ++ depthImg)

/-- The collection loop over `sensor_data.values()` in camera iteration order
(lines 35-39) followed by `torch.concat(images, axis=-1)` (line 42). -/
def gatherImages (rgbOnly : Bool) : List (String × CamData) → Option (List (List ℚ))
  | [] => some []
  | (_, cam) :: rest =>
    match camChannels rgbOnly cam with
    | none => none
    | some c =>
      match gatherImages rgbOnly rest with
      | none => none
      | some r => some (c ++ r)

/-- The structured observation the wrapper receives: ordered camera dict
`sensor_data` (popped, line 33), the `sensor_param` entry (deleted, line 34),
and the remaining non-image state fields in dict order. -/
structure RawObs where
  sensor_data : List (String × CamData)
  sensor_param : List (String × List ℚ)
  rest : List (String × List ℚ)

/-- Modelled from the spec: `mani_skill.utils.common.flatten_state_dict` is
not under `src/`; per the spec it produces one dense numeric vector
concatenating all remaining non-image fields in a stable, deterministic key
order (the dict iteration order). -/
def flatten_state_dict (xs : List (String × List ℚ)) : List ℚ :=
  (xs.map Prod.snd).join

/-- A value of the flattened observation dict: the dense `state` vector or the
stacked image. -/
inductive ObsVal where
  | vec : List ℚ → ObsVal
  | img : List (List ℚ) → ObsVal

/-- `FlattenRGBDObservationWrapper.observation` (lines 32-49): pop
`sensor_data`, delete `sensor_param`, stack every camera's channels, flatten
the remaining fields into `state`, and return the two-key dict
`{state, rgb}` when `rgb_only` else `{state, rgbd}`.  `none` models the
`KeyError` on a missing channel and the error `torch.concat` raises on an
empty image list. -/
def observation (rgbOnly : Bool) (o : RawObs) : Option (List (String × ObsVal)) :=
  match gatherImages rgbOnly o.sensor_data with
  | none => none
  | some chans =>
    if o.sensor_data.isEmpty then none
    else
      some [("state", ObsVal.vec (flatten_state_dict o.rest)),
        (if rgbOnly then "rgb" else "rgbd", ObsVal.img chans)]

/-- The channels a camera contributes, in closed form. -/
def camContribution (rgbOnly : Bool) (cam : CamData) : List (List ℚ) :=
  cam.rgb.getD [] ++ if rgbOnly then [] else cam.depth.getD []

theorem gatherImages_success (rgbOnly : Bool) :
    ∀ cams : List (String × CamData),
      (∀ p ∈ cams, p.2.rgb ≠ none ∧ (rgbOnly = false → p.2.depth ≠ none)) →
      gatherImages rgbOnly cams
        = some ((cams.map fun p => camContribution rgbOnly p.2).join) := by
  intro cams
  induction cams with
  | nil => intro _; rfl
  | cons p rest ih =>
    intro h
    obtain ⟨k, cam⟩ := p
    obtain ⟨hrgb, hdepth⟩ := h (k, cam) (by simp)
    have hrest := ih fun q hq => h q (by simp [hq])
    cases hr : cam.rgb with
    | none => exact absurd hr hrgb
    | some rgbImg =>
      cases rgbOnly with
      | true =>
        simp [gatherImages, camChannels, hr, hrest, camContribution]
      | false =>
        cases hd : cam.depth with
        | none => exact absurd hd (hdepth rfl)
        | some depthImg =>
          simp [gatherImages, camChannels, hr, hd, hrest, camContribution]

theorem gatherImages_missing_rgb (rgbOnly : Bool) :
    ∀ (cams : List (String × CamData)) (k : String) (cam : CamData),
      (k, cam) ∈ cams → cam.rgb = none → gatherImages rgbOnly cams = none := by
  intro cams
  induction cams with
  | nil => intro k cam h _; simp at h
  | cons p rest ih =>
    intro k cam hmem hrgb
    rcases List.mem_cons.mp hmem with h | h
    · subst h
      simp [gatherImages, camChannels, hrgb]
    · obtain ⟨k2, cam2⟩ := p
      have hrest := ih k cam h hrgb
      simp only [gatherImages, hrest]
      cases camChannels rgbOnly cam2 <;> rfl

/-- Claim C6: for a structured observation with at least one camera, the
wrapper returns a dict with exactly the two keys `state` — flattening all
non-image fields in their stable dict order — and `rgb` (when `rgb_only`) or
`rgbd`, the concatenation of every camera's color (and, unless `rgb_only`,
depth) channels in camera iteration order; and it fails whenever some
camera's data lacks an `rgb` entry. -/
theorem observation_flatten_structure (rgbOnly : Bool) (o : RawObs)
    (hne : o.sensor_data ≠ []) :
    ((∀ p ∈ o.sensor_data, p.2.rgb ≠ none ∧ (rgbOnly = false → p.2.depth ≠ none)) →
      observation rgbOnly o
        = some [("state", ObsVal.vec (flatten_state_dict o.rest)),
            (if rgbOnly then "rgb" else "rgbd",
              ObsVal.img ((o.sensor_data.map fun p => camContribution rgbOnly p.2).join))])
    ∧ (∀ k cam, (k, cam) ∈ o.sensor_data → cam.rgb = none →
        observation rgbOnly o = none) := by
  have hE : o.sensor_data.isEmpty = false := by
    cases hs : o.sensor_data with
    | nil => exact absurd hs hne
    | cons a l => simp [hs]
  constructor
  · intro hall
    simp only [observation, gatherImages_success rgbOnly o.sensor_data hall, hE,
      Bool.false_eq_true, if_false]
  · intro k cam hmem hrgb
    simp only [observation, gatherImages_missing_rgb rgbOnly o.sensor_data k cam hmem hrgb]

/-- A concrete structured observation for the witness: two cameras with
distinct channel contents, one state field, a `sensor_param` entry that must
be dropped. -/
def rawObsEx : RawObs where
  sensor_data :=
    [("cam1", { rgb := some [[1], [2], [3]], depth := some [[4]] }),
     ("cam2", { rgb := some [[5], [6], [7]], depth := some [[8]] })]
  sensor_param := [("cam1", [9, 9])]
  rest := [("agent", [10, 11]), ("extra", [12])]

/-- Witness for claim C6 at the concrete observation `rawObsEx` in `rgbd`
mode. -/
theorem observation_flatten_structure_witness :
    ((∀ p ∈ rawObsEx.sensor_data, p.2.rgb ≠ none ∧ (false = false → p.2.depth ≠ none)) →
      observation false rawObsEx
        = some [("state", ObsVal.vec (flatten_state_dict rawObsEx.rest)),
            (if false then "rgb" else "rgbd",
              ObsVal.img ((rawObsEx.sensor_data.map fun p => camContribution false p.2).join))])
    ∧ (∀ k cam, (k, cam) ∈ rawObsEx.sensor_data → cam.rgb = none →
        observation false rawObsEx = none) :=
  observation_flatten_structure false rawObsEx (by simp [rawObsEx])

/-!
### Clipped surrogate loss and clip fraction (`ppo_rgb_sb3.py`, lines 522-541)
-/

/-- `torch.mean` of a vector. -/
def qmean (xs : List ℚ) : ℚ := xs.sum / xs.length

/-- `torch.clamp(x, lo, hi) = min(max(x, lo), hi)`. -/
def clampQ (x lo hi : ℚ) : ℚ := min (max x lo) hi

/-- The per-sample clipped surrogate losses
`max(-A*ratio, -A*clamp(ratio, 1-eps, 1+eps))` (lines 539-541). -/
def pgLosses (clip : ℚ) (advs ratios : List ℚ) : List ℚ :=
  List.zipWith (fun A r => max (-A * r) (-A * clampQ r (1 - clip) (1 + clip))) advs ratios

/-- `pg_loss = torch.max(pg_loss1, pg_loss2).mean()` (line 541), with
advantage normalization disabled (`norm_adv` off, line 536). -/
def pgLoss (clip : ℚ) (advs ratios : List ℚ) : ℚ := qmean (pgLosses clip advs ratios)

/-- `((ratio - 1.0).abs() > args.clip_coef).float().mean()` (line 530). -/
def clipfrac (clip : ℚ) (ratios : List ℚ) : ℚ :=
  qmean (ratios.map fun r => if clip < |r - 1| then 1 else 0)

/-- Claim C7: on a minibatch where every probability ratio is exactly 1 (and
with a nonnegative clip coefficient), the recorded clip fraction is 0 and the
clipped surrogate policy loss equals `-mean(advantages)`. -/
theorem clipfrac_zero_policy_loss (clip : ℚ) (advs ratios : List ℚ)
    (hlen : ratios.length = advs.length) (_hne : advs ≠ [])
    (h1 : ∀ r ∈ ratios, r = 1) (hc : 0 ≤ clip) :
    clipfrac clip ratios = 0 ∧ pgLoss clip advs ratios = -(qmean advs) := by
  constructor
  · have hzero : ∀ x ∈ ratios.map (fun r => if clip < |r - 1| then (1 : ℚ) else 0), x = 0 := by
      intro x hx
      rw [List.mem_map] at hx
      obtain ⟨r, hr, rfl⟩ := hx
      rw [h1 r hr]
      simp [hc, not_lt]
    simp [clipfrac, qmean, List.sum_eq_zero hzero]
  · have hpl : pgLosses clip advs ratios = advs.map (fun A => -A) := by
      clear _hne
      induction advs generalizing ratios with
      | nil => simp [pgLosses]
      | cons A advs ih =>
        cases ratios with
        | nil => simp at hlen
        | cons r rs =>
          have hr : r = 1 := h1 r (by simp)
          have hrest := ih rs (by simpa using hlen) (fun q hq => h1 q (by simp [hq]))
          simp only [pgLosses, List.zipWith_cons_cons, List.map_cons] at hrest ⊢
          rw [hrest, hr]
          congr 1
          have hcl : clampQ 1 (1 - clip) (1 + clip) = 1 := by
            unfold clampQ
            rw [max_eq_left (by linarith), min_eq_left (by linarith)]
          rw [hcl]
          simp
    rw [pgLoss, hpl]
    have hsum : ∀ l : List ℚ, (l.map fun A => -A).sum = -l.sum := by
      intro l
      induction l with
      | nil => simp
      | cons x l ih => rw [List.map_cons, List.sum_cons, List.sum_cons, ih]; ring
    simp only [qmean, hsum advs, List.length_map]
    rw [neg_div]

/-- Witness for claim C7 at the concrete minibatch with advantages `[2, 4]`
and all ratios exactly 1, clip coefficient `1/5`. -/
theorem clipfrac_zero_policy_loss_witness :
    clipfrac (1/5) [1, 1] = 0 ∧ pgLoss (1/5) [2, 4] [1, 1] = -(qmean [2, 4]) :=
  clipfrac_zero_policy_loss (1/5) [2, 4] [1, 1] (by norm_num) (by simp)
    (by
      intro r hr
      simp at hr
      exact hr)
    (by norm_num)

/-!
### Explained variance (`ppo_rgb_sb3.py`, lines 569-571)
-/

/-- `np.var`: population variance, the mean of squared deviations from the
mean (`ddof = 0`). -/
def npVar (xs : List ℚ) : ℚ := qmean (xs.map fun x => (x - qmean xs) ^ 2)

/-- `explained_var = np.nan if var_y == 0 else
1 - np.var(y_true - y_pred) / var_y` (lines 569-571); the NaN sentinel is
modelled as `none`. -/
def explainedVariance (yPred yTrue : List ℚ) : Option ℚ :=
  if npVar yTrue = 0 then none
  else some (1 - npVar (List.zipWith (fun a b => a - b) yTrue yPred) / npVar yTrue)

theorem npVar_zeros (l : List ℚ) (h : ∀ x ∈ l, x = 0) : npVar l = 0 := by
  have hq : qmean l = 0 := by simp [qmean, List.sum_eq_zero h]
  have h2 : ∀ x ∈ l.map (fun x => (x - qmean l) ^ 2), x = 0 := by
    intro x hx
    rw [List.mem_map] at hx
    obtain ⟨a, ha, rfl⟩ := hx
    rw [hq, h a ha]
    ring
  have h3 : (l.map fun x => (x - qmean l) ^ 2).sum = 0 := List.sum_eq_zero h2
  rw [npVar, qmean, h3, zero_div]

/-- Claim C8: when the stored value predictions exactly equal the returns and
the returns have nonzero variance, the explained-variance metric is exactly 1;
when the returns' variance is 0, the metric is the not-a-number sentinel
rather than an error. -/
theorem explained_variance_cases (yTrue yPred : List ℚ) :
    (npVar yTrue ≠ 0 → explainedVariance yTrue yTrue = some 1)
    ∧ (npVar yTrue = 0 → explainedVariance yPred yTrue = none) := by
  constructor
  · intro h
    have hdiff : npVar (List.zipWith (fun a b => a - b) yTrue yTrue) = 0 := by
      apply npVar_zeros
      intro x hx
      rw [List.zipWith_same] at hx
      rw [List.mem_map] at hx
      obtain ⟨a, _, rfl⟩ := hx
      ring
    simp only [explainedVariance, if_neg h]
    rw [hdiff]
    simp
  · intro h
    simp [explainedVariance, h]

/-- Witness for claim C8: returns `[0, 2]` have variance 1, so predicting them
exactly gives explained variance 1; constant returns `[5, 5]` have variance 0
and produce the sentinel. -/
theorem explained_variance_cases_witness :
    npVar [0, 2] ≠ 0 ∧ explainedVariance [0, 2] [0, 2] = some 1
    ∧ npVar [5, 5] = 0 ∧ explainedVariance [3, 4] [5, 5] = none := by
  have h1 : npVar [0, 2] ≠ 0 := by norm_num [npVar, qmean]
  have h2 : npVar [5, 5] = 0 := by norm_num [npVar, qmean]
  exact ⟨h1, (explained_variance_cases [0, 2] [0, 2]).1 h1, h2,
    (explained_variance_cases [5, 5] [3, 4]).2 h2⟩

/-!
### `DictArray.reshape` and batch flattening (`ppo_rgb_sb3.py`, lines 115-158
and 503-509)

A `DictArray` is a dict of buffers, each either a tensor with leading shape
`(num_steps, num_envs)` or a nested `DictArray`; `reshape((-1,))` keeps the
trailing dims of every value and flattens the two leading dims, recursing into
nested dicts (lines 149-158).  A leading-two-dims tensor is embedded as a list
of `num_steps` rows of `num_envs` entries, the entry type `α` carrying the
trailing dims; row-major `reshape` is `List.join`.  The plain rollout tensors
(`logprobs`, `actions`, `advantages`, `returns`, `values`, lines 505-509) are
the `tensor` leaf case.
-/

mutual
inductive DictArr (α : Type) where
  | tensor : List (List α) → DictArr α
  | dict : DictEntries α → DictArr α
inductive DictEntries (α : Type) where
  | nil : DictEntries α
  | cons : String → DictArr α → DictEntries α → DictEntries α
end

mutual
inductive FlatArr (α : Type) where
  | tensor : List α → FlatArr α
  | dict : FlatEntries α → FlatArr α
inductive FlatEntries (α : Type) where
  | nil : FlatEntries α
  | cons : String → FlatArr α → FlatEntries α → FlatEntries α
end

mutual
/-- `DictArray.reshape((-1,))` (lines 149-158): every tensor value keeps its
trailing dims (`v.reshape(shape + v.shape[t:])`, row-major, i.e. `join` of the
two leading dims) and nested `DictArray` values are reshaped recursively with
the same leading shape. -/
def dreshape {α : Type} : DictArr α → FlatArr α
  | .tensor rows => .tensor rows.flatten
  | .dict es => .dict (dreshapeEntries es)
def dreshapeEntries {α : Type} : DictEntries α → FlatEntries α
  | .nil => .nil
  | .cons k v rest => .cons k (dreshape v) (dreshapeEntries rest)
end

mutual
/-- The leaf tensor reached by following a key path into a `DictArray`. -/
def leafAt {α : Type} : DictArr α → List String → Option (List (List α))
  | .tensor rows, [] => some rows
  | .tensor _, _ :: _ => none
  | .dict _, [] => none
  | .dict es, k :: p => entriesLeafAt es k p
def entriesLeafAt {α : Type} :
    DictEntries α → String → List String → Option (List (List α))
  | .nil, _, _ => none
  | .cons k2 v rest, k, p => if k2 = k then leafAt v p else entriesLeafAt rest k p
end

mutual
/-- The leaf tensor reached by a key path after reshaping. -/
def flatLeafAt {α : Type} : FlatArr α → List String → Option (List α)
  | .tensor v, [] => some v
  | .tensor _, _ :: _ => none
  | .dict _, [] => none
  | .dict es, k :: p => flatEntriesLeafAt es k p
def flatEntriesLeafAt {α : Type} :
    FlatEntries α → String → List String → Option (List α)
  | .nil, _, _ => none
  | .cons k2 v rest, k, p =>
      if k2 = k then flatLeafAt v p else flatEntriesLeafAt rest k p
end

mutual
theorem leafAt_dreshape {α : Type} :
    ∀ (d : DictArr α) (path : List String) (rows : List (List α)),
      leafAt d path = some rows → flatLeafAt (dreshape d) path = some rows.flatten
  | .tensor rows2, [], rows, h => by
      simp only [leafAt, Option.some.injEq] at h
      subst h
      rfl
  | .tensor _, _ :: _, _, h => by simp [leafAt] at h
  | .dict _, [], _, h => by simp [leafAt] at h
  | .dict es, k :: p, rows, h => by
      simp only [leafAt] at h
      simp only [dreshape, flatLeafAt]
      exact entriesLeafAt_dreshape es k p rows h
theorem entriesLeafAt_dreshape {α : Type} :
    ∀ (es : DictEntries α) (k : String) (p : List String) (rows : List (List α)),
      entriesLeafAt es k p = some rows →
      flatEntriesLeafAt (dreshapeEntries es) k p = some rows.flatten
  | .nil, _, _, _, h => by simp [entriesLeafAt] at h
  | .cons k2 v rest, k, p, rows, h => by
      simp only [entriesLeafAt] at h
      simp only [dreshapeEntries, flatEntriesLeafAt]
      by_cases hk : k2 = k
      · rw [if_pos hk] at h ⊢
        exact leafAt_dreshape v p rows h
      · rw [if_neg hk] at h ⊢
        exact entriesLeafAt_dreshape rest k p rows h
end

/-- Row-major index arithmetic of the leading-dims flatten: entry
`i = t*num_envs + e` of the joined buffer is entry `(t, e)` of the original. -/
theorem join_get_two_dims {α : Type} (E : ℕ) :
    ∀ (rows : List (List α)) (t e : ℕ), (∀ r ∈ rows, r.length = E) → e < E →
      rows.flatten[t * E + e]? = rows[t]?.bind (fun r => r[e]?) := by
  intro rows
  induction rows with
  | nil => intro t e _ _; simp
  | cons r rest ih =>
    intro t e h he
    have hr : r.length = E := h r (by simp)
    cases t with
    | zero =>
      simp only [Nat.zero_mul, Nat.zero_add, List.flatten_cons]
      rw [List.getElem?_append_left (by omega)]
      simp
    | succ t =>
      rw [List.flatten_cons]
      have hmul : (t + 1) * E = t * E + E := by ring
      have hlen : r.length ≤ (t + 1) * E + e := by omega
      rw [List.getElem?_append_right hlen]
      simp only [List.getElem?_cons_succ]
      rw [← ih t e (fun q hq => h q (by simp [hq])) he]
      congr 1
      omega

/-- Claim C10: `DictArray.reshape` applies the same leading-dimension flatten
to every key (recursing into nested dicts), and for every leaf buffer of
leading shape `(num_steps, num_envs)` the flattened index `i = t*num_envs + e`
addresses exactly the `(t, e)` rollout entry — for dict-valued buffers
(`b_obs`, every key) and plain tensor buffers (`b_logprobs`, `b_actions`,
`b_advantages`, `b_returns`, `b_values`: the `tensor` leaf case) alike — so
each flattened sample is a coherent per-`(t, e)` tuple. -/
theorem reshape_alignment {α : Type} (d : DictArr α) (path : List String)
    (rows : List (List α)) (E t e : ℕ)
    (hleaf : leafAt d path = some rows)
    (hshape : ∀ r ∈ rows, r.length = E) (he : e < E) :
    flatLeafAt (dreshape d) path = some rows.flatten
    ∧ rows.flatten[t * E + e]? = rows[t]?.bind (fun r => r[e]?) :=
  ⟨leafAt_dreshape d path rows hleaf, join_get_two_dims E rows t e hshape he⟩

/-- A concrete rollout `DictArray` for the witness: 2 steps × 2 envs, keys
`state` and `rgb`. -/
def dictArrEx : DictArr ℚ :=
  .dict (.cons "state" (.tensor [[1, 2], [3, 4]])
    (.cons "rgb" (.tensor [[5, 6], [7, 8]]) .nil))

/-- Witness for claim C10 at the concrete buffer `dictArrEx`, key path
`["state"]`, `(t, e) = (1, 0)`. -/
theorem reshape_alignment_witness :
    flatLeafAt (dreshape dictArrEx) ["state"]
        = some ([[1, 2], [3, 4]] : List (List ℚ)).flatten
    ∧ ([[1, 2], [3, 4]] : List (List ℚ)).flatten[1 * 2 + 0]?
        = ([[1, 2], [3, 4]] : List (List ℚ))[1]?.bind (fun r => r[0]?) :=
  reshape_alignment dictArrEx ["state"] [[1, 2], [3, 4]] 2 1 0
    (by simp [dictArrEx, leafAt, entriesLeafAt])
    (by
      intro r hr
      simp only [List.mem_cons, List.not_mem_nil, or_false] at hr
      rcases hr with rfl | rfl <;> rfl)
    (by norm_num)

end PPO
